import Mathlib

/-!
Verification of the toshimo coding-assistant agent against its
natural-language specification.

Strings from the JavaScript source are modelled as `List Char` (named
`Str` below); JavaScript numbers are modelled as exact rationals, and
the dynamically-typed JSON values flowing through the LLM gateway are
modelled by the inductive `Json` type.  Each definition is a direct
transcription of the corresponding JavaScript function; comments note
the source file and any place where the JS runtime semantics (UTF-16
code units, IEEE floats) is idealised.
-/

set_option maxHeartbeats 1600000
set_option maxRecDepth 4096

abbrev Str := List Char

/-! ## JavaScript string primitives used by parseResponse -/

/-- The character class `\s` of JavaScript regular expressions
(whitespace, including the Unicode space separators). -/
def jsWhitespace (c : Char) : Bool :=
  let n := c.toNat
  (9 ≤ n && n ≤ 13) || n = 32 || n = 160 || n = 5760 ||
  (8192 ≤ n && n ≤ 8202) || n = 8232 || n = 8233 || n = 8239 ||
  n = 8287 || n = 12288 || n = 65279

/-- `str.replace(/\r\n/g, '')`: delete carriage-return/line-feed pairs,
scanning left to right without overlap. -/
def removeCRLF : Str → Str
  | '\r' :: '\n' :: rest => removeCRLF rest
  | c :: rest => c :: removeCRLF rest
  | [] => []

/-- `str.replace(/\n/g, '')`: delete every remaining line feed. -/
def removeLF (s : Str) : Str :=
  s.filter (fun c => !(c == '\n'))

/-- One step of collapsing whitespace runs: a whitespace character
becomes a single space, merging with an immediately following space
(spaces in the output only ever arise from whitespace input). -/
def collapseStep (c : Char) (acc : Str) : Str :=
  if jsWhitespace c then
    match acc with
    | ' ' :: _ => acc
    | _ => ' ' :: acc
  else c :: acc

/-- `str.replace(/\s+/g, ' ')`: collapse every maximal whitespace run
to a single space. -/
def collapseWS (s : Str) : Str :=
  s.foldr collapseStep []

/-- `str.trim()`: strip leading and trailing whitespace. -/
def jsTrim (s : Str) : Str :=
  ((s.dropWhile jsWhitespace).reverse.dropWhile jsWhitespace).reverse

/-- Boolean prefix test used by the index searches. -/
def strIsPrefix : Str → Str → Bool
  | [], _ => true
  | _ :: _, [] => false
  | a :: as, b :: bs => a == b && strIsPrefix as bs

/-- `haystack.indexOf(needle)` (as an `Option`; JS returns `-1` for
`none`), scanning from position `i`. -/
def jsIndexOfAux : Str → Str → Nat → Option Nat
  | hay, needle, i =>
    match hay with
    | [] => if needle.isEmpty then some i else none
    | _ :: rest =>
      if strIsPrefix needle hay then some i else jsIndexOfAux rest needle (i + 1)

def jsIndexOf (hay needle : Str) : Option Nat :=
  jsIndexOfAux hay needle 0

/-- `haystack.lastIndexOf(needle)`: the greatest matching position. -/
def jsLastIndexOfAux : Str → Str → Nat → Option Nat → Option Nat
  | hay, needle, i, best =>
    match hay with
    | [] => if needle.isEmpty then some i else best
    | _ :: rest =>
      jsLastIndexOfAux rest needle (i + 1)
        (if strIsPrefix needle hay then some i else best)

def jsLastIndexOf (hay needle : Str) : Option Nat :=
  jsLastIndexOfAux hay needle 0 none

/-- `str.substring(a, b)` for `a ≤ b` (the swapping/clamping JS does
for `a > b` is unreachable at the one call site, see
`parseResponse`). -/
def jsSubstring (s : Str) (a b : Nat) : Str :=
  (s.drop a).take (b - a)

/-! ## JSON values and `JSON.parse`

`JSON.parse` is modelled by a fuelled recursive-descent parser over
`List Char`.  Numbers are parsed into exact rationals (the IEEE-754
rounding JavaScript applies is not modelled; no claim depends on
numeric values).  String escapes cover the JSON escape set including
`\uXXXX`. -/

inductive Json where
  | null : Json
  | bool (b : Bool) : Json
  | num (q : ℚ) : Json
  | str (s : Str) : Json
  | arr (elems : List Json) : Json
  | obj (fields : List (Str × Json)) : Json

/-- Whitespace accepted between JSON tokens. -/
def jsonWS (c : Char) : Bool :=
  c == ' ' || c == '\t' || c == '\n' || c == '\r'

def skipWS (s : Str) : Str :=
  s.dropWhile jsonWS

def hexVal (c : Char) : Option Nat :=
  let n := c.toNat
  if 48 ≤ n && n ≤ 57 then some (n - 48)
  else if 97 ≤ n && n ≤ 102 then some (n - 87)
  else if 65 ≤ n && n ≤ 70 then some (n - 55)
  else none

def escVal (c : Char) : Option Char :=
  if c = '"' then some '"'
  else if c = '\\' then some '\\'
  else if c = '/' then some '/'
  else if c = 'b' then some '\x08'
  else if c = 'f' then some '\x0c'
  else if c = 'n' then some '\n'
  else if c = 'r' then some '\r'
  else if c = 't' then some '\t'
  else none

/-- Parse the body of a JSON string literal (the opening quote already
consumed); returns the decoded characters and the remaining input. -/
def parseStrBody : Str → Option (Str × Str)
  | [] => none
  | '"' :: rest => some ([], rest)
  | '\\' :: 'u' :: h1 :: h2 :: h3 :: h4 :: rest =>
    match hexVal h1, hexVal h2, hexVal h3, hexVal h4 with
    | some a, some b, some c, some d =>
      let n := ((a * 16 + b) * 16 + c) * 16 + d
      if h : n.isValidChar then
        (parseStrBody rest).map (fun p => (Char.ofNatAux n h :: p.1, p.2))
      else none
    | _, _, _, _ => none
  | '\\' :: e :: rest =>
    match escVal e with
    | some c => (parseStrBody rest).map (fun p => (c :: p.1, p.2))
    | none => none
  | c :: rest =>
    if c.toNat < 32 then none
    else (parseStrBody rest).map (fun p => (c :: p.1, p.2))

def isDigit (c : Char) : Bool :=
  48 ≤ c.toNat && c.toNat ≤ 57

def digitsToNat (ds : Str) : Nat :=
  ds.foldl (fun acc c => acc * 10 + (c.toNat - 48)) 0

/-- Parse the integer-and-fraction-and-exponent grammar of a JSON
number starting at the head of `s` (a trailing lone `.` is left in the
remainder and rejected by the caller, as `JSON.parse` does). -/
def parseNum (s : Str) : Option (ℚ × Str) :=
  let (neg, s1) := match s with
    | '-' :: rest => (true, rest)
    | _ => (false, s)
  let intDigits := s1.takeWhile isDigit
  let s2 := s1.dropWhile isDigit
  if intDigits.isEmpty then none
  else if intDigits.length > 1 && intDigits.headD '0' == '0' then none
  else
    let intPart : ℚ := (digitsToNat intDigits : ℚ)
    let (fracPart, s3) : ℚ × Str := match s2 with
      | '.' :: rest =>
        let fd := rest.takeWhile isDigit
        if fd.isEmpty then (0, '.' :: rest)
        else ((digitsToNat fd : ℚ) / ((10 : ℚ) ^ fd.length), rest.dropWhile isDigit)
      | _ => (0, s2)
    match s3 with
    | e :: rest =>
      if e == 'e' || e == 'E' then
        let (eneg, r1) := match rest with
          | '+' :: r => (false, r)
          | '-' :: r => (true, r)
          | _ => (false, rest)
        let ed := r1.takeWhile isDigit
        if ed.isEmpty then none
        else
          let base : ℚ := intPart + fracPart
          let mag : ℚ := (10 : ℚ) ^ (digitsToNat ed)
          let v : ℚ := if eneg then base / mag else base * mag
          some (if neg then -v else v, r1.dropWhile isDigit)
      else
        let v : ℚ := intPart + fracPart
        some (if neg then -v else v, s3)
    | [] =>
      let v : ℚ := intPart + fracPart
      some (if neg then -v else v, [])

mutual

def parseValueF : Nat → Str → Option (Json × Str)
  | 0, _ => none
  | Nat.succ f, s =>
    match skipWS s with
    | [] => none
    | c :: rest =>
      if c = '\x7b' then
        match skipWS rest with
        | '\x7d' :: r2 => some (.obj [], r2)
        | s1 =>
          match parseObjFields f s1 with
          | some (fs, r) => some (.obj fs, r)
          | none => none
      else if c = '[' then
        match skipWS rest with
        | ']' :: r2 => some (.arr [], r2)
        | s1 =>
          match parseArrElems f s1 with
          | some (es, r) => some (.arr es, r)
          | none => none
      else if c = '"' then
        (parseStrBody rest).map (fun p => (.str p.1, p.2))
      else if c = 't' then
        match rest with
        | 'r' :: 'u' :: 'e' :: r => some (.bool true, r)
        | _ => none
      else if c = 'f' then
        match rest with
        | 'a' :: 'l' :: 's' :: 'e' :: r => some (.bool false, r)
        | _ => none
      else if c = 'n' then
        match rest with
        | 'u' :: 'l' :: 'l' :: r => some (.null, r)
        | _ => none
      else
        (parseNum (c :: rest)).map (fun p => (.num p.1, p.2))

def parseObjFields : Nat → Str → Option (List (Str × Json) × Str)
  | 0, _ => none
  | Nat.succ f, s =>
    match skipWS s with
    | '"' :: rest =>
      match parseStrBody rest with
      | some (key, r1) =>
        match skipWS r1 with
        | ':' :: r2 =>
          match parseValueF f r2 with
          | some (v, r3) =>
            match skipWS r3 with
            | ',' :: r4 => (parseObjFields f r4).map (fun p => ((key, v) :: p.1, p.2))
            | '\x7d' :: r4 => some ([(key, v)], r4)
            | _ => none
          | none => none
        | _ => none
      | none => none
    | _ => none

def parseArrElems : Nat → Str → Option (List Json × Str)
  | 0, _ => none
  | Nat.succ f, s =>
    match parseValueF f s with
    | some (v, r) =>
      match skipWS r with
      | ',' :: r2 => (parseArrElems f r2).map (fun p => (v :: p.1, p.2))
      | ']' :: r2 => some ([v], r2)
      | _ => none
    | none => none

end

/-- `JSON.parse(s)` (as an `Option`; `none` models the thrown
`SyntaxError`).  The fuel `2*|s|+2` dominates the recursion depth,
which grows by at most two per consumed character. -/
def jsonParse (s : Str) : Option Json :=
  match parseValueF (2 * s.length + 2) s with
  | some (j, r) => if skipWS r = [] then some j else none
  | none => none

/-! ## JavaScript value coercions on parsed JSON -/

/-- Property lookup `obj.k` on a parsed JSON value (`none` models
`undefined`).  `JSON.parse` keeps the last duplicate key, so lookup
takes the last binding. -/
def getField (j : Json) (k : Str) : Option Json :=
  match j with
  | .obj fields => (fields.reverse.find? (fun p => p.1 == k)).map (·.2)
  | _ => none

/-- JavaScript truthiness of a parsed JSON value. -/
def jsTruthy : Json → Bool
  | .null => false
  | .bool b => b
  | .num q => decide (q ≠ 0)
  | .str s => !s.isEmpty
  | .arr _ => true
  | .obj _ => true

/-- `v.length` on a parsed JSON value: arrays and strings expose their
length, objects their own "length" field, everything else
`undefined`. -/
def jsLengthProp : Json → Option Json
  | .arr es => some (.num es.length)
  | .str s => some (.num s.length)
  | .obj fields => getField (.obj fields) "length".data
  | _ => none

/-- Optional chaining `v?.length` applied to a possibly-`undefined`
value: short-circuits on `undefined` and `null`. -/
def jsOptLength : Option Json → Option Json
  | none => none
  | some .null => none
  | some v => jsLengthProp v

/-- JavaScript number values as they matter for comparisons: `NaN`,
the infinities, and finite values (idealised as exact rationals). -/
inductive JsNumber where
  | nan : JsNumber
  | posInf : JsNumber
  | negInf : JsNumber
  | fin (q : ℚ) : JsNumber
  deriving DecidableEq

/-- `x > 0` on a JavaScript number (`NaN > 0` is `false`). -/
def JsNumber.gtZero : JsNumber → Bool
  | .nan => false
  | .posInf => true
  | .negInf => false
  | .fin q => decide (0 < q)

/-- Exponent suffix of a string numeric literal: empty means `10^0`,
otherwise `e`/`E`, an optional sign, and digits consuming the rest. -/
def parseExpPart (s : Str) : Option Int :=
  match s with
  | [] => some 0
  | e :: rest =>
    if e == 'e' || e == 'E' then
      let (neg, r) := match rest with
        | '+' :: r2 => (false, r2)
        | '-' :: r2 => (true, r2)
        | _ => (false, rest)
      let ds := r.takeWhile isDigit
      if ds.isEmpty || !(r.dropWhile isDigit).isEmpty then none
      else some (if neg then -(digitsToNat ds : Int) else (digitsToNat ds : Int))
    else none

/-- An unsigned decimal string numeric literal
(`digits [. digits] [exp]` or `. digits [exp]`, leading zeros
allowed), matching the whole string. -/
def parseDecimalNum (s : Str) : Option ℚ :=
  let intD := s.takeWhile isDigit
  let s1 := s.dropWhile isDigit
  match s1 with
  | '.' :: r =>
    let frD := r.takeWhile isDigit
    let s2 := r.dropWhile isDigit
    if intD.isEmpty && frD.isEmpty then none
    else
      (parseExpPart s2).map (fun e =>
        ((digitsToNat intD : ℚ) + (digitsToNat frD : ℚ) / (10 : ℚ) ^ frD.length) *
          (10 : ℚ) ^ e)
  | _ =>
    if intD.isEmpty then none
    else (parseExpPart s1).map (fun e => (digitsToNat intD : ℚ) * (10 : ℚ) ^ e)

/-- A radix integer literal body: all characters must be digits of the
radix and there must be at least one. -/
def parseRadixNat (radix : Nat) (digitVal : Char → Option Nat) (s : Str) :
    Option Nat :=
  match s with
  | [] => none
  | _ =>
    s.foldl (fun acc c =>
      match acc, digitVal c with
      | some a, some d => some (a * radix + d)
      | _, _ => none) (some 0)

def binVal (c : Char) : Option Nat :=
  if c = '0' then some 0 else if c = '1' then some 1 else none

def octVal (c : Char) : Option Nat :=
  if 48 ≤ c.toNat && c.toNat ≤ 55 then some (c.toNat - 48) else none

/-- `ToNumber` on a string: trim whitespace, empty means `0`, then a
hex/binary/octal literal (unsigned only), a signed `Infinity`, or a
signed decimal literal; anything else is `NaN`. -/
def jsStrToNumber (s : Str) : JsNumber :=
  let t := jsTrim s
  match t with
  | [] => .fin 0
  | _ =>
    if strIsPrefix "0x".data t || strIsPrefix "0X".data t then
      match parseRadixNat 16 hexVal (t.drop 2) with
      | some n => .fin n
      | none => .nan
    else if strIsPrefix "0b".data t || strIsPrefix "0B".data t then
      match parseRadixNat 2 binVal (t.drop 2) with
      | some n => .fin n
      | none => .nan
    else if strIsPrefix "0o".data t || strIsPrefix "0O".data t then
      match parseRadixNat 8 octVal (t.drop 2) with
      | some n => .fin n
      | none => .nan
    else
      let (neg, u) := match t with
        | '+' :: r => (false, r)
        | '-' :: r => (true, r)
        | _ => (false, t)
      if u = "Infinity".data then (if neg then .negInf else .posInf)
      else
        match parseDecimalNum u with
        | some q => .fin (if neg then -q else q)
        | none => .nan

/-- `ToNumber` on a parsed JSON value, including the `ToPrimitive`
step: `null` is `0`, booleans are `0`/`1`, strings go through the
string grammar, plain objects stringify to "[object Object]" and give
`NaN`.  An array stringifies to `join(',')`: empty means `""` (so
`0`), two or more elements always contain a comma (so `NaN`), and a
single element is its own `ToString` — the recursion is sound because
`ToNumber` after `ToString` is the identity on numbers, strings pass
through, a lone `null` renders as `""` (again `0`), while a lone
boolean renders as "true"/"false" (`NaN`). -/
def jsToNumber : Json → JsNumber
  | .null => .fin 0
  | .bool b => .fin (if b then 1 else 0)
  | .num q => .fin q
  | .str s => jsStrToNumber s
  | .obj _ => .nan
  | .arr [] => .fin 0
  | .arr [.bool _] => .nan
  | .arr [x] => jsToNumber x
  | .arr (_ :: _ :: _) => .nan

/-- The comparison `x > 0` as applied by the gateway to a
possibly-`undefined` length value: `undefined > 0` is `false`; any
other value is coerced with `ToNumber`/`ToPrimitive` first, so for
example a `length` field holding the string "1" compares as
`1 > 0 = true`. -/
def jsGtZero : Option Json → Bool
  | none => false
  | some v => (jsToNumber v).gtZero

/-! ## LLMService.parseResponse (src/services/LLMService.js) -/

structure LLMResponse where
  content : Json
  actions : Json
  questions : Json
  requiresUserInput : Bool

def startMarker : Str := "<RESPONSE_START>".data
def endMarker : Str := "<RESPONSE_END>".data

/-- The normalisation pipeline at the head of `parseResponse`. -/
def normalizeResponse (s : Str) : Str :=
  jsTrim (collapseWS (removeLF (removeCRLF s)))

/-- The no-marker fallback: the raw input becomes the narrative. -/
def rawResult (response : Str) : LLMResponse :=
  ⟨.str response, .arr [], .arr [], false⟩

/-- The outer catch handler's result.  The inner catch block references
`jsonStr`, a const scoped to the inner try block, so logging itself
throws `ReferenceError: jsonStr is not defined` (V8 wording), which is
what the outer handler formats. -/
def errorResult (response : Str) : LLMResponse :=
  ⟨.str ("Error parsing response: jsonStr is not defined\n\nOriginal response:\n".data
      ++ response),
   .arr [], .arr [], false⟩

/-- The success branch after `JSON.parse`: `chat || response`,
`actions || []`, `questions || []`, and
`questions?.length > 0`. -/
def successResult (response : Str) (j : Json) : LLMResponse :=
  { content :=
      match getField j "chat".data with
      | some v => if jsTruthy v then v else .str response
      | none => .str response
    actions :=
      match getField j "actions".data with
      | some v => if jsTruthy v then v else .arr []
      | none => .arr []
    questions :=
      match getField j "questions".data with
      | some v => if jsTruthy v then v else .arr []
      | none => .arr []
    requiresUserInput := jsGtZero (jsOptLength (getField j "questions".data)) }

/-- The inner try block applied to the text sliced out between the
markers: validate the brace frame, then `JSON.parse`; any failure
lands in the outer catch (via the `ReferenceError`, see
`errorResult`). -/
def decodePayload (response : Str) (payload : Str) : LLMResponse :=
  if payload.headD ' ' = '\x7b' && payload.getLastD ' ' = '\x7d' then
    match jsonParse payload with
    | some j => successResult response j
    | none => errorResult response
  else errorResult response

/-- `LLMService.parseResponse`: normalise, locate the first
`<RESPONSE_START>` and the last `<RESPONSE_END>`, and decode the slice
between them; without both markers in order, the raw text is the
narrative. -/
def parseResponse (response : Str) : LLMResponse :=
  let n := normalizeResponse response
  match jsIndexOf n startMarker, jsLastIndexOf n endMarker with
  | some si, some ei =>
    if si < ei then
      decodePayload response (jsTrim (jsSubstring n (si + startMarker.length) ei))
    else rawResult response
  | _, _ => rawResult response

/-! ## Splitting helpers shared by ContextManager and EmbeddingProvider -/

/-- Split a string at every character satisfying `p`
(`"a,b".split(',')`-style: empty pieces are kept, and the result is
never empty). -/
def splitPred (p : Char → Bool) : Str → List Str
  | [] => [[]]
  | c :: rest =>
    if p c then [] :: splitPred p rest
    else
      match splitPred p rest with
      | l :: ls => (c :: l) :: ls
      | [] => [[c]]

/-- `content.split('\n')`. -/
def splitLines : Str → List Str :=
  splitPred (fun c => c == '\n')

/-- `text.split(/\s+/).filter(w => w.length > 0)`: the maximal
whitespace-free runs (splitting on single whitespace characters and
dropping empties agrees with splitting on runs and dropping
empties). -/
def jsWords (t : Str) : List Str :=
  (splitPred jsWhitespace t).filter (fun w => !w.isEmpty)

/-! ## ContextManager.chunkDocument (indexer, unnamed source file) -/

/-- A document or chunk record `{type, path, language, content,
metadata}`. -/
structure CodeDoc where
  type : Str
  path : Str
  language : Str
  content : Str
  metadata : Str
  deriving DecidableEq

/-- The metadata template written into every chunk. -/
def chunkMetadata (d : CodeDoc) : Str :=
  "File: ".data ++ d.path ++ "\nLanguage: ".data ++ d.language ++
    "\nType: ".data ++ d.type

/-- A freshly reset `currentChunk`. -/
def freshChunk (d : CodeDoc) : CodeDoc :=
  ⟨"chunk".data, d.path, d.language, [], chunkMetadata d⟩

/-- The `for (const line of lines)` loop of `chunkDocument`: flush the
current chunk when the next line would exceed the budget, then append
`line + '\n'`; after the loop the current chunk is pushed if its
content is non-empty (string truthiness). -/
def chunkLoop (d : CodeDoc) (maxChunkSize : Nat) :
    List Str → List CodeDoc → CodeDoc → Nat → List CodeDoc
  | [], chunks, cur, _ => if cur.content.isEmpty then chunks else chunks ++ [cur]
  | line :: rest, chunks, cur, curSize =>
    if curSize + line.length > maxChunkSize then
      chunkLoop d maxChunkSize rest (chunks ++ [cur])
        { freshChunk d with content := line ++ ['\n'] } (line.length + 1)
    else
      chunkLoop d maxChunkSize rest chunks
        { cur with content := cur.content ++ line ++ ['\n'] }
        (curSize + line.length + 1)

/-- `ContextManager.chunkDocument(document, maxChunkSize = 1500)`
(line lengths are character counts; the UTF-16 surrogate-pair
difference from JS `.length` is not modelled). -/
def chunkDocument (d : CodeDoc) (maxChunkSize : Nat := 1500) : List CodeDoc :=
  chunkLoop d maxChunkSize (splitLines d.content) [] (freshChunk d) 0

/-! ## EmbeddingProvider.generateSimpleHash (unnamed source file)

The scatter phase works in exact rationals.  The final step of the JS
function divides the vector by its L2 magnitude (`magnitude > 0 ?
vec.map(v => v / magnitude) : vec`); since the magnitude is an
irrational square root, that normalisation is stated over `ℝ` in the
theorems about `generateSimpleHashVec` rather than baked into the
executable definition. -/

/-- `n & n` of JavaScript: coerce to a signed 32-bit integer. -/
def toInt32 (n : ℤ) : ℤ :=
  (n + 2 ^ 31) % 2 ^ 32 - 2 ^ 31

/-- One character step of `simpleHash`:
`hash = ((hash << 5) - hash) + charCode; hash = hash & hash`. -/
def simpleHashStep (h : ℤ) (c : Char) : ℤ :=
  toInt32 (toInt32 (h * 32) - h + c.toNat)

/-- `EmbeddingProvider.simpleHash(text)` (characters stand in for
UTF-16 code units; identical on the Basic Multilingual Plane). -/
def simpleHash (t : Str) : ℤ :=
  t.foldl simpleHashStep 0

/-- `Math.abs(hash) % 384`. -/
def hashPos (t : Str) : Nat :=
  (simpleHash t).natAbs % 384

/-- One `forEach` step: `vec[pos] += 1 / (index + 1)`. -/
def scatterStep (v : List ℚ) (iw : Nat × Str) : List ℚ :=
  v.set (hashPos iw.2) (v.getD (hashPos iw.2) 0 + 1 / (iw.1 + 1 : ℚ))

/-- The vector built by `generateSimpleHash` before the final
normalisation (which is also the returned vector verbatim in the
empty-words branch). -/
def generateSimpleHashVec (t : Str) : List ℚ :=
  let words := jsWords t
  if words.isEmpty then (List.replicate 384 0).set (hashPos t) 1
  else words.enum.foldl scatterStep (List.replicate 384 0)

/-- Squared L2 magnitude `vec.reduce((sum, val) => sum + val*val, 0)`. -/
def magSq (v : List ℚ) : ℚ :=
  (v.map (fun x => x * x)).sum

/-! ## LocalVectorDB (src/terminal/TerminalCommandManager.js) -/

abbrev Vec := List ℚ

structure VectorDB where
  vectors : List Vec
  documents : List CodeDoc
  isDirty : Bool
  deriving DecidableEq

/-- The constructor state. -/
def VectorDB.init : VectorDB := ⟨[], [], false⟩

/-- The observable content of a persisted snapshot file: unreadable /
unparsable, or a parsed JSON object whose `vectors` and `documents`
fields may each be missing (`none` models a falsy field). -/
inductive VFile where
  | absent
  | invalid
  | data (vectors : Option (List Vec)) (documents : Option (List CodeDoc))
      (version : Option Str)
  deriving DecidableEq

abbrev FileSys := Str → VFile

def fsWrite (fs : FileSys) (p : Str) (f : VFile) : FileSys :=
  fun q => if q = p then f else fs q

/-- `LocalVectorDB.add(document, vector)`. -/
def VectorDB.add (db : VectorDB) (document : CodeDoc) (vector : Vec) : VectorDB :=
  ⟨db.vectors ++ [vector], db.documents ++ [document], true⟩

/-- `LocalVectorDB.save(filePath)`: skip when not dirty, otherwise
write `{vectors, documents, version: '1.0'}` and clear the dirty flag
(the write itself is modelled as always succeeding; a failing write
raises a typed storage error in the source). -/
def VectorDB.save (db : VectorDB) (fs : FileSys) (filePath : Str) :
    VectorDB × FileSys :=
  if db.isDirty then
    ({ db with isDirty := false },
     fsWrite fs filePath (.data (some db.vectors) (some db.documents)
       (some "1.0".data)))
  else (db, fs)

/-- `LocalVectorDB.load(filePath)`: install the parsed arrays when both
are present with equal lengths; on any read/parse failure or
invariant violation, reset to an empty dirty store and return
`false`. -/
def VectorDB.load (_db : VectorDB) (fs : FileSys) (filePath : Str) :
    VectorDB × Bool :=
  match fs filePath with
  | .data (some vs) (some ds) _ =>
    if vs.length = ds.length then (⟨vs, ds, false⟩, true)
    else (⟨[], [], true⟩, false)
  | _ => (⟨[], [], true⟩, false)

/-- `LocalVectorDB.isEmpty()` (the source tests `vectors.length`). -/
def VectorDB.isEmpty (db : VectorDB) : Bool :=
  db.vectors.length == 0

/-- `LocalVectorDB.search(query, k = 5)`: the first `k` stored
documents' content, ignoring the query (the inner try/catch is dead
code: the body cannot throw). -/
def VectorDB.search (db : VectorDB) (_query : Str) (k : Nat := 5) : List Str :=
  if db.isEmpty then [] else (db.documents.take k).map (·.content)

/-- The public operations of `LocalVectorDB`, for stating
reachability invariants. -/
inductive DBOp where
  | add (document : CodeDoc) (vector : Vec)
  | save (filePath : Str)
  | load (filePath : Str)
  | search (query : Str) (k : Nat)

def DBOp.apply (st : VectorDB × FileSys) (op : DBOp) : VectorDB × FileSys :=
  match op with
  | .add d v => (st.1.add d v, st.2)
  | .save p => st.1.save st.2 p
  | .load p => ((st.1.load st.2 p).1, st.2)
  | .search _ _ => st

/-- Run a sequence of operations on a fresh store over an arbitrary
initial file system. -/
def runOps (fs : FileSys) (ops : List DBOp) : VectorDB × FileSys :=
  ops.foldl DBOp.apply (VectorDB.init, fs)

/-! ## ToolManager.executeAction (unnamed source file) -/

structure JsError where
  message : Str
  deriving DecidableEq

structure ToolAction where
  tool : Str
  command : Str
  params : List Json

/-- The own keys of the `this.tools` object literal built in the
`ToolManager` constructor. -/
def toolNames : List Str :=
  ["FileManager".data, "FileEditor".data, "TerminalClient".data,
   "WebScraper".data]

/-- Members every plain object inherits from `Object.prototype` (all
function-valued, plus the `__proto__` accessor returning an object);
looking any of them up on `this.tools` or on a tool instance yields a
truthy value, so the existence checks of `executeAction` accept
them. -/
def objectProtoProps : List Str :=
  ["constructor".data, "hasOwnProperty".data, "isPrototypeOf".data,
   "propertyIsEnumerable".data, "toLocaleString".data, "toString".data,
   "valueOf".data, "__defineGetter__".data, "__defineSetter__".data,
   "__lookupGetter__".data, "__lookupSetter__".data, "__proto__".data]

/-- The callable methods of each tool class (always truthy on the
instance via its prototype). -/
def toolMethods (tool : Str) : List Str :=
  if tool = "FileManager".data then
    ["createFile".data, "readFile".data, "fileExists".data]
  else if tool = "FileEditor".data then ["editFile".data, "showDiff".data]
  else if tool = "TerminalClient".data then
    ["executeCommand".data, "formatCommand".data, "getPlatformInfo".data]
  else if tool = "WebScraper".data then ["scrape".data]
  else []

/-- Instance data fields set in the tool constructors.  Their
truthiness is environment- and state-dependent: `workspaceRoot` is the
workspace path or `undefined`, `terminal` is `null` until a terminal
is created, `platform` is a non-empty platform string. -/
def toolFields (tool : Str) : List Str :=
  if tool = "FileManager".data then ["workspaceRoot".data]
  else if tool = "TerminalClient".data then ["terminal".data, "platform".data]
  else []

/-- `Object.keys(this.tools).join(', ')` (own enumerable keys only). -/
def availableToolsMsg : Str :=
  "FileManager, FileEditor, TerminalClient, WebScraper".data

/-- Truthiness of `this.tools[tool]`: the four tool instances and the
inherited `Object.prototype` members are truthy; every other lookup is
`undefined`.  This is static, so it needs no parameter. -/
def toolTruthy (tool : Str) : Bool :=
  toolNames.contains tool || objectProtoProps.contains tool

/-- `ToolManager.executeAction({tool, command, params})`.  The two
existence checks are the JS truthiness tests `!this.tools[tool]` and
`!this.tools[tool][command]`; the first is the static `toolTruthy`,
the second is the parameter `propTruthy` because instance data fields
make it state-dependent (the theorems constrain it at the real tool
names).  `invoke` is the outcome of
`this.tools[tool][command](...params)` — a real command's behaviour,
an inherited function's result, or the TypeError raised by calling a
non-function field; the inner try/catch logs and rethrows unchanged,
the identity on this result. -/
def executeAction (propTruthy : Str → Str → Bool)
    (invoke : Str → Str → List Json → Except JsError Json)
    (action : ToolAction) : Except JsError Json :=
  if toolTruthy action.tool = false then
    .error ⟨"Tool ".data ++ action.tool ++ " not found. Available tools: ".data
      ++ availableToolsMsg⟩
  else if propTruthy action.tool action.command = false then
    .error ⟨"Command ".data ++ action.command ++ " not found for tool ".data
      ++ action.tool⟩
  else invoke action.tool action.command action.params

/-! ## AIAgent.processPrompt history update (unnamed source file) -/

structure ChatMsg where
  role : Str
  content : Json

/-- `arr.slice(-n)` for `n > 0`. -/
def jsSliceLast (l : List α) (n : Nat) : List α :=
  l.drop (l.length - n)

/-- The tail of `AIAgent.processPrompt` after action dispatch: if the
response still carries questions (`response.questions &&
response.questions.length > 0`) the turn short-circuits with the
history untouched; otherwise the user turn and the assistant narrative
are appended and the history is truncated to the last 10 entries.
Returns the new history and whether the question short-circuit was
taken. -/
def processPromptFinish (chatHistory : List ChatMsg) (prompt : Str)
    (response : LLMResponse) : List ChatMsg × Bool :=
  if jsTruthy response.questions && jsGtZero (jsLengthProp response.questions) then
    (chatHistory, true)
  else
    (jsSliceLast
      (chatHistory ++
        [⟨"user".data, .str prompt⟩, ⟨"assistant".data, response.content⟩]) 10,
     false)

/-! ## Helper definitions for the statements below -/

/-- Marker occurrence predicate: `needle` matches `hay` at index `i`. -/
def occursAt (hay needle : Str) (i : Nat) : Bool :=
  strIsPrefix needle (hay.drop i)

/-- The extracted payload fails the inner try block: bad brace frame or
a `JSON.parse` syntax error. -/
def payloadFails (p : Str) : Bool :=
  !(p.headD ' ' = '\x7b' && p.getLastD ' ' = '\x7d') || (jsonParse p).isNone

/-- Length of a JSON string value (`0` on other constructors); used to
separate unequal responses. -/
def jsonStrLen : Json → Nat
  | .str s => s.length
  | _ => 0

/-- Length of a JSON array value (`0` on other constructors). -/
def jsonArrLen : Json → Nat
  | .arr es => es.length
  | _ => 0

/-- Modelled from the spec: the specified decoding rule locates "the
first occurrence of the start marker and the earliest of the accepted
end-marker variants" (this source defines a single end marker).
Identical to `parseResponse` except that the end marker is located
with `indexOf` (earliest occurrence) where the implementation uses
`lastIndexOf`; kept only to compare against the implementation. -/
def parseResponseSpecReading (response : Str) : LLMResponse :=
  let n := normalizeResponse response
  match jsIndexOf n startMarker, jsIndexOf n endMarker with
  | some si, some ei =>
    if si < ei then
      decodePayload response (jsTrim (jsSubstring n (si + startMarker.length) ei))
    else rawResult response
  | _, _ => rawResult response

/-- Concrete gateway reply used for the question-filtering claim: one
question whose `id` and `text` are empty and whose `type` is the
sentinel "none". -/
def c1input : Str :=
  "<RESPONSE_START>\x7b\"chat\":\"ok\",\"questions\":[\x7b\"id\":\"\",\"text\":\"\",\"type\":\"none\"\x7d]\x7d<RESPONSE_END>".data

/-- Concrete gateway reply whose payload fails the brace validation. -/
def c2input : Str := "<RESPONSE_START>oops<RESPONSE_END>".data

/-- Concrete gateway reply with two end markers: the earliest end
marker delimits valid JSON, the last does not. -/
def c3input : Str :=
  "<RESPONSE_START>\x7b\"chat\":\"hi\"\x7d<RESPONSE_END>x<RESPONSE_END>".data

/-- A snapshot file is corrupt for `load`: unreadable, unparsable, a
missing array field, or mismatched array lengths. -/
def corruptSnapshot : VFile → Bool
  | .data (some vs) (some ds) _ => vs.length != ds.length
  | _ => true

/-- A concrete document used in store counterexamples. -/
def sampleDoc : CodeDoc :=
  ⟨"file".data, "a.js".data, "javascript".data, "x".data, "m".data⟩

/-- A valid one-record snapshot file. -/
def c4file : VFile := .data (some [[1]]) (some [sampleDoc]) (some "1.0".data)

/-- File system holding `c4file` at path "a" and nothing elsewhere. -/
def c4fs : FileSys := fsWrite (fun _ => .absent) "a".data c4file

/-- The clean, non-empty store obtained by loading "a". -/
def c4store : VectorDB := (VectorDB.init.load c4fs "a".data).1

/-- Saving that clean store to the fresh path "b" (a no-op). -/
def c4saved : VectorDB × FileSys := c4store.save c4fs "b".data

/-- A tool implementation whose command fails with a message naming
neither the tool nor the command (as the raw `ENOENT` errors of
`fs/promises` do). -/
def c8boomImpl : Str → Str → List Json → Except JsError Json :=
  fun _ _ _ => .error ⟨"boom".data⟩

/-- Concatenation of chunk contents. -/
def contentJoin (cs : List CodeDoc) : Str :=
  (cs.map (·.content)).flatten

/-- Number of line feeds in a string: each stored line contributes
exactly one, so this counts the lines a chunk carries. -/
def nlCount (s : Str) : Nat :=
  s.countP (· == '\n')

/-- Total line count over a chunk list. -/
def totalNL (cs : List CodeDoc) : Nat :=
  (cs.map (fun c => nlCount c.content)).sum

/-- Newline-free string (a single source line). -/
def noNL (l : Str) : Bool :=
  l.all (fun c => !(c == '\n'))

/-- Each line followed by the `'\n'` the chunker appends. -/
def joinNL (ls : List Str) : Str :=
  (ls.map (fun l => l ++ ['\n'])).flatten

/-- A chunk respects the budget up to its trailing newline, or is a
single line that alone exceeds the budget. -/
def chunkSizeOK (B : Nat) (c : CodeDoc) : Prop :=
  c.content.length ≤ B + 1 ∨
    ∃ l : Str, noNL l = true ∧ c.content = l ++ ['\n'] ∧ B < l.length

/-- A document with two short lines whose single chunk's content
exceeds the budget by the appended newlines. -/
def c5doc : CodeDoc :=
  ⟨"file".data, "a.txt".data, "plaintext".data, "aaaaa\nbbbb".data, "m".data⟩

/-- A tool implementation that always succeeds; used to witness the
dispatch theorem. -/
def c8okImpl : Str → Str → List Json → Except JsError Json :=
  fun _ _ _ => .ok .null

/-- A concrete property-truthiness state for the witness: all methods
and inherited members are truthy, and of the instance fields only
`TerminalClient.platform` (a non-empty platform string) is truthy —
the state of a fresh ToolManager with no open workspace. -/
def c8propTruthy : Str → Str → Bool := fun t c =>
  ((toolMethods t).contains c || objectProtoProps.contains c) ||
    (t = "TerminalClient".data && c = "platform".data)

/-- The payload `parseResponse` slices out of `c1input`. -/
def c1payload : Str :=
  jsTrim (jsSubstring (normalizeResponse c1input) (0 + startMarker.length) 77)

/-- The JSON value `JSON.parse` produces from `c1payload`. -/
def c1json : Json :=
  .obj [("chat".data, .str "ok".data),
    ("questions".data,
      .arr [.obj [("id".data, .str []), ("text".data, .str []),
        ("type".data, .str "none".data)]])]

/-- Invariant carried by every chunk the loop builds: its content is a
newline-terminated join of newline-free lines, and it either fits the
budget up to the trailing newline or is a single oversized line. -/
def chunkRep (B : Nat) (c : CodeDoc) : Prop :=
  ∃ ls : List Str, c.content = joinNL ls ∧ (∀ l ∈ ls, noNL l = true) ∧
    (c.content.length ≤ B + 1 ∨ ∃ l, ls = [l] ∧ B < l.length)

/-! ## Theorems: LocalVectorDB (claims C10, C6, C4) -/

theorem DBOp.apply_inv (st : VectorDB × FileSys) (op : DBOp)
    (h : st.1.vectors.length = st.1.documents.length) :
    (DBOp.apply st op).1.vectors.length = (DBOp.apply st op).1.documents.length := by
  rcases st with ⟨db, fs⟩
  cases op with
  | add d v =>
    simp only [DBOp.apply, VectorDB.add, List.length_append, List.length_cons,
      List.length_nil] at h ⊢
    omega
  | save p =>
    by_cases hd : db.isDirty <;> simp [DBOp.apply, VectorDB.save, hd] <;> exact h
  | load p =>
    simp only [DBOp.apply, VectorDB.load]
    cases hf : fs p with
    | absent => simp [hf]
    | invalid => simp [hf]
    | data vs ds ver =>
      cases vs with
      | none => simp [hf]
      | some v =>
        cases ds with
        | none => simp [hf]
        | some d => by_cases hl : v.length = d.length <;> simp [hf, hl]
  | search q k => simpa [DBOp.apply] using h

theorem foldl_apply_inv : ∀ (ops : List DBOp) (st : VectorDB × FileSys),
    st.1.vectors.length = st.1.documents.length →
    (ops.foldl DBOp.apply st).1.vectors.length =
      (ops.foldl DBOp.apply st).1.documents.length := by
  intro ops
  induction ops with
  | nil => intro st h; simpa using h
  | cons op rest ih =>
    intro st h
    simpa using ih (DBOp.apply st op) (DBOp.apply_inv st op h)

/-- C10: in every `LocalVectorDB` state reachable from a fresh store by
`add`/`save`/`load`/`search`, the vectors and documents lists have equal
length; moreover `add` appends exactly one element to each, `save`
never modifies them, `load` leaves a store satisfying the invariant,
and `search` does not change the state at all. -/
theorem localVectorDB_length_invariant :
    (∀ (fs : FileSys) (ops : List DBOp),
       (runOps fs ops).1.vectors.length = (runOps fs ops).1.documents.length) ∧
    (∀ (db : VectorDB) (d : CodeDoc) (v : Vec),
       (db.add d v).vectors.length = db.vectors.length + 1 ∧
       (db.add d v).documents.length = db.documents.length + 1) ∧
    (∀ (db : VectorDB) (fs : FileSys) (p : Str),
       (db.save fs p).1.vectors = db.vectors ∧
       (db.save fs p).1.documents = db.documents) ∧
    (∀ (db : VectorDB) (fs : FileSys) (p : Str),
       (db.load fs p).1.vectors.length = (db.load fs p).1.documents.length) ∧
    (∀ (st : VectorDB × FileSys) (q : Str) (k : Nat),
       DBOp.apply st (.search q k) = st) := by
  refine ⟨fun fs ops => foldl_apply_inv ops (VectorDB.init, fs) rfl, ?_, ?_, ?_, ?_⟩
  · intro db d v; constructor <;> simp [VectorDB.add]
  · intro db fs p; by_cases hd : db.isDirty <;> simp [VectorDB.save, hd]
  · intro db fs p
    unfold VectorDB.load
    cases hf : fs p with
    | absent => simp
    | invalid => simp
    | data vs ds ver =>
      cases vs with
      | none => simp
      | some v =>
        cases ds with
        | none => simp
        | some d => by_cases hl : v.length = d.length <;> simp [hl]
  · intro st q k; rfl

/-- C6: on a store satisfying the length invariant, `search` returns
exactly the contents of the first `min k size` stored documents in
insertion order, independently of the query; the result is shorter
than `k` exactly when the store holds fewer than `k` records, and the
empty store yields the empty list. -/
theorem search_returns_first_k (db : VectorDB) (q q' : Str) (k : Nat)
    (hinv : db.vectors.length = db.documents.length) :
    db.search q k = (db.documents.take k).map (·.content) ∧
    db.search q k = db.search q' k ∧
    (db.search q k).length = min k db.documents.length ∧
    ((db.search q k).length < k ↔ db.documents.length < k) ∧
    (db.documents.length = 0 → db.search q k = []) := by
  have hmain : db.search q k = (db.documents.take k).map (·.content) := by
    unfold VectorDB.search VectorDB.isEmpty
    cases hv : db.vectors.length == 0 with
    | false => simp [hv]
    | true =>
      have hv' : db.vectors.length = 0 := by simpa using hv
      have hd : db.documents = [] := List.length_eq_zero.mp (hinv ▸ hv')
      simp [hv, hd]
  have hlen : (db.search q k).length = min k db.documents.length := by
    rw [hmain]; simp
  refine ⟨hmain, rfl, hlen, ?_, ?_⟩
  · rw [hlen]; omega
  · intro hd0
    rw [hmain, List.length_eq_zero.mp hd0]
    simp

/-- Witness for C6 at a concrete one-record store. -/
theorem search_returns_first_k_witness :
    VectorDB.search ⟨[[1]], [sampleDoc], false⟩ "q".data 5 = [sampleDoc.content] :=
  ((search_returns_first_k ⟨[[1]], [sampleDoc], false⟩ "q".data "r".data 5
    (by decide)).1).trans (by decide)

/-- C4 (amended): when the store is dirty (so that `save` actually
writes) and satisfies the length invariant, saving to a path and
loading from that path restores the same vectors and documents, in
order, leaving a clean store and returning `true`; and loading any
corrupt snapshot (unreadable, unparsable, missing arrays, or
mismatched array lengths) resets the store to empty-and-dirty and
returns `false` instead of raising. -/
theorem save_load_roundtrip (db : VectorDB) (fs : FileSys) (p : Str)
    (hinv : db.vectors.length = db.documents.length) :
    (db.isDirty = true →
       (db.save fs p).1.load (db.save fs p).2 p =
         (⟨db.vectors, db.documents, false⟩, true)) ∧
    (corruptSnapshot (fs p) = true →
       db.load fs p = (⟨[], [], true⟩, false)) := by
  constructor
  · intro hd
    simp [VectorDB.save, hd, VectorDB.load, fsWrite, hinv]
  · intro hc
    unfold VectorDB.load
    cases hf : fs p with
    | absent => simp
    | invalid => simp
    | data vs ds ver =>
      cases vs with
      | none => simp
      | some v =>
        cases ds with
        | none => simp
        | some d =>
          have hl : v.length ≠ d.length := by
            have := hc
            rw [hf] at this
            simpa [corruptSnapshot] using this
          simp [hl]

/-- Witness for C4 at a concrete dirty store and a corrupt file. -/
theorem save_load_roundtrip_witness :
    (VectorDB.save ⟨[[1]], [sampleDoc], true⟩ (fun _ => VFile.absent) "p".data).1.load
        (VectorDB.save ⟨[[1]], [sampleDoc], true⟩ (fun _ => VFile.absent) "p".data).2
        "p".data =
      (⟨[[1]], [sampleDoc], false⟩, true) ∧
    VectorDB.load ⟨[], [], false⟩ (fun _ => VFile.absent) "q".data =
      (⟨[], [], true⟩, false) :=
  ⟨(save_load_roundtrip ⟨[[1]], [sampleDoc], true⟩ (fun _ => VFile.absent) "p".data
      (by decide)).1 rfl,
   (save_load_roundtrip ⟨[], [], false⟩ (fun _ => VFile.absent) "q".data
      (by decide)).2 (by decide)⟩

/-- Counterexample to C4 as stated: a clean non-empty store is
reachable (by loading a valid snapshot), `save` to a fresh path is
then a no-op, and loading from that path yields an empty store — the
document count is not preserved by save-then-load for every store
state. -/
theorem save_load_roundtrip_counterexample :
    c4store.isDirty = false ∧
    c4store.documents.length = 1 ∧
    (c4saved.1.load c4saved.2 "b".data).1.documents.length = 0 ∧
    (c4saved.1.load c4saved.2 "b".data).2 = false := by
  decide

/-! ## Theorems: AIAgent history update (claim C9) -/

/-- C9: on a turn that does not short-circuit on questions, the new
history is exactly the last ten entries of the prior history extended
with the user turn and the assistant narrative; hence it is a suffix
of that extension, its length is capped at ten, and short histories
are kept whole. -/
theorem processPrompt_history_update (h : List ChatMsg) (prompt : Str)
    (r : LLMResponse)
    (hq : (jsTruthy r.questions && jsGtZero (jsLengthProp r.questions)) = false) :
    processPromptFinish h prompt r =
      ((h ++ [ChatMsg.mk "user".data (.str prompt),
          ChatMsg.mk "assistant".data r.content]).drop (h.length + 2 - 10),
       false) ∧
    (processPromptFinish h prompt r).1.length = min (h.length + 2) 10 ∧
    (processPromptFinish h prompt r).1 <:+
      (h ++ [ChatMsg.mk "user".data (.str prompt),
        ChatMsg.mk "assistant".data r.content]) ∧
    (processPromptFinish h prompt r).1.length ≤ 10 ∧
    (h.length + 2 ≤ 10 →
      (processPromptFinish h prompt r).1 =
        h ++ [ChatMsg.mk "user".data (.str prompt),
          ChatMsg.mk "assistant".data r.content]) := by
  have hmain : processPromptFinish h prompt r =
      (jsSliceLast (h ++ [ChatMsg.mk "user".data (.str prompt),
        ChatMsg.mk "assistant".data r.content]) 10, false) := by
    simp [processPromptFinish, hq]
  have hlen : (h ++ [ChatMsg.mk "user".data (.str prompt),
      ChatMsg.mk "assistant".data r.content]).length = h.length + 2 := by
    simp
  refine ⟨?_, ?_, ?_, ?_, ?_⟩
  · rw [hmain]
    simp only [jsSliceLast, hlen]
  · rw [hmain]
    simp only [jsSliceLast, List.length_drop, hlen]
    omega
  · rw [hmain]
    exact List.drop_suffix _ _
  · rw [hmain]
    simp only [jsSliceLast, List.length_drop, hlen]
    omega
  · intro hle
    rw [hmain]
    simp only [jsSliceLast, hlen]
    have h0 : h.length + 2 - 10 = 0 := by omega
    rw [h0, List.drop_zero]

/-- Witness for C9 at a concrete empty history and question-free
response. -/
theorem processPrompt_history_update_witness :
    processPromptFinish [] "hi".data (rawResult "x".data) =
      (([] ++ [ChatMsg.mk "user".data (.str "hi".data),
          ChatMsg.mk "assistant".data (rawResult "x".data).content]).drop
        (List.length ([] : List ChatMsg) + 2 - 10), false) :=
  (processPrompt_history_update [] "hi".data (rawResult "x".data) (by decide)).1

/-! ## Theorems: ToolManager.executeAction (claim C8) -/

theorem toolMethods_mem_toolNames (t c : Str)
    (h : (toolMethods t).contains c = true) : toolNames.contains t = true := by
  unfold toolMethods at h
  by_cases h1 : t = "FileManager".data
  · simp [toolNames, h1]
  · rw [if_neg h1] at h
    by_cases h2 : t = "FileEditor".data
    · simp [toolNames, h2]
    · rw [if_neg h2] at h
      by_cases h3 : t = "TerminalClient".data
      · simp [toolNames, h3]
      · rw [if_neg h3] at h
        by_cases h4 : t = "WebScraper".data
        · simp [toolNames, h4]
        · rw [if_neg h4] at h
          simp at h

/-- C8 (amended): the existence checks of `executeAction` are JS
truthiness tests, so: an action whose tool name is neither a
registered tool nor an inherited `Object.prototype` member fails with
the "Tool ... not found" error naming the available tools; for a
registered tool, a command that is none of that tool's methods, none
of the inherited members, and none of its instance data fields fails
with the "Command ... not found for tool ..." error; a real method is
invoked exactly once, positionally with `params`, its result or
failure passed through unchanged (the originating tool and command
are identified only in console logging, never attached to a
propagated failure, and there are no retries).  Inherited members
pass both checks and are invoked rather than producing the
unknown-tool/unknown-command errors; truthy instance fields likewise
pass the command check.  `propTruthy` is constrained to the command
truthiness of the source: methods and inherited members are truthy,
and nothing outside methods, inherited members, and instance fields
is. -/
theorem executeAction_dispatch
    (propTruthy : Str → Str → Bool)
    (invoke : Str → Str → List Json → Except JsError Json)
    (a : ToolAction)
    (hmeth : ∀ t c,
      ((toolMethods t).contains c || objectProtoProps.contains c) = true →
      propTruthy t c = true)
    (hmiss : ∀ t c, toolNames.contains t = true → propTruthy t c = true →
      ((toolMethods t).contains c || objectProtoProps.contains c ||
        (toolFields t).contains c) = true) :
    (toolTruthy a.tool = false →
      executeAction propTruthy invoke a =
        .error ⟨"Tool ".data ++ a.tool ++ " not found. Available tools: ".data ++
          availableToolsMsg⟩) ∧
    (toolNames.contains a.tool = true →
      ((toolMethods a.tool).contains a.command ||
        objectProtoProps.contains a.command ||
        (toolFields a.tool).contains a.command) = false →
      executeAction propTruthy invoke a =
        .error ⟨"Command ".data ++ a.command ++ " not found for tool ".data ++
          a.tool⟩) ∧
    ((toolMethods a.tool).contains a.command = true →
      executeAction propTruthy invoke a = invoke a.tool a.command a.params) ∧
    (toolNames.contains a.tool = true →
      objectProtoProps.contains a.command = true →
      executeAction propTruthy invoke a = invoke a.tool a.command a.params) := by
  refine ⟨?_, ?_, ?_, ?_⟩
  · intro hfalse
    simp [executeAction, hfalse]
  · intro ht hnone
    have htt : toolTruthy a.tool = true := by
      unfold toolTruthy
      rw [ht]
      rfl
    have hpf : propTruthy a.tool a.command = false := by
      cases hp : propTruthy a.tool a.command
      · rfl
      · have hmem := hmiss a.tool a.command ht hp
        rw [hnone] at hmem
        exact absurd hmem (by simp)
    simp [executeAction, htt, hpf]
  · intro hcmd
    have ht : toolNames.contains a.tool = true :=
      toolMethods_mem_toolNames _ _ hcmd
    have htt : toolTruthy a.tool = true := by
      unfold toolTruthy
      rw [ht]
      rfl
    have hpt : propTruthy a.tool a.command = true :=
      hmeth _ _ (by rw [hcmd]; rfl)
    simp [executeAction, htt, hpt]
  · intro ht hproto
    have htt : toolTruthy a.tool = true := by
      unfold toolTruthy
      rw [ht]
      rfl
    have hpt : propTruthy a.tool a.command = true :=
      hmeth _ _ (by rw [hproto]; simp)
    simp [executeAction, htt, hpt]

/-- Witness for C8: the dispatch outcomes at concrete actions in the
fresh-ToolManager truthiness state `c8propTruthy`, including an
inherited member invoked instead of erroring. -/
theorem executeAction_dispatch_witness :
    executeAction c8propTruthy c8okImpl ⟨"Nope".data, "x".data, []⟩ =
      .error ⟨"Tool ".data ++ "Nope".data ++
        " not found. Available tools: ".data ++ availableToolsMsg⟩ ∧
    executeAction c8propTruthy c8okImpl ⟨"FileManager".data, "zap".data, []⟩ =
      .error ⟨"Command ".data ++ "zap".data ++ " not found for tool ".data ++
        "FileManager".data⟩ ∧
    executeAction c8propTruthy c8okImpl
        ⟨"FileManager".data, "readFile".data, []⟩ =
      c8okImpl "FileManager".data "readFile".data [] ∧
    executeAction c8propTruthy c8okImpl
        ⟨"FileManager".data, "toString".data, []⟩ =
      c8okImpl "FileManager".data "toString".data [] := by
  have hmeth : ∀ t c,
      ((toolMethods t).contains c || objectProtoProps.contains c) = true →
      c8propTruthy t c = true := by
    intro t c h
    simp only [c8propTruthy]
    rw [h]
    rfl
  have hmiss : ∀ t c, toolNames.contains t = true → c8propTruthy t c = true →
      ((toolMethods t).contains c || objectProtoProps.contains c ||
        (toolFields t).contains c) = true := by
    intro t c ht hp
    simp only [c8propTruthy, Bool.or_eq_true] at hp
    rcases hp with (hp | hp) | hp
    · simp only [hp, Bool.true_or]
    · simp only [hp, Bool.true_or, Bool.or_true]
    · simp only [Bool.and_eq_true, decide_eq_true_eq] at hp
      obtain ⟨hpt, hpc⟩ := hp
      subst hpt
      subst hpc
      decide
  exact ⟨(executeAction_dispatch c8propTruthy c8okImpl
            ⟨"Nope".data, "x".data, []⟩ hmeth hmiss).1 (by decide),
         (executeAction_dispatch c8propTruthy c8okImpl
            ⟨"FileManager".data, "zap".data, []⟩ hmeth hmiss).2.1
           (by decide) (by decide),
         (executeAction_dispatch c8propTruthy c8okImpl
            ⟨"FileManager".data, "readFile".data, []⟩ hmeth hmiss).2.2.1
           (by decide),
         (executeAction_dispatch c8propTruthy c8okImpl
            ⟨"FileManager".data, "toString".data, []⟩ hmeth hmiss).2.2.2
           (by decide) (by decide)⟩

/-- Counterexample to C8 as stated: a failing command's error is
propagated verbatim with a message identifying neither the
originating tool nor the command, and the inherited non-command
`toString` is invoked instead of raising the unknown-command
error. -/
theorem executeAction_propagation_counterexample :
    executeAction c8propTruthy c8boomImpl
        ⟨"FileManager".data, "readFile".data, []⟩ =
      .error ⟨"boom".data⟩ ∧
    jsIndexOf "boom".data "FileManager".data = none ∧
    jsIndexOf "boom".data "readFile".data = none ∧
    (toolMethods "FileManager".data).contains "toString".data = false ∧
    executeAction c8propTruthy c8okImpl
        ⟨"FileManager".data, "toString".data, []⟩ =
      c8okImpl "FileManager".data "toString".data [] :=
  ⟨rfl, by decide, by decide, by decide, rfl⟩

/-! ## Theorems: LLMService.parseResponse (claims C1, C2, C3) -/

theorem jsIndexOfAux_sound (needle : Str) : ∀ (hay : Str) (i0 r : Nat),
    jsIndexOfAux hay needle i0 = some r →
    i0 ≤ r ∧ occursAt hay needle (r - i0) = true ∧
      ∀ j, j < r - i0 → occursAt hay needle j = false := by
  intro hay
  induction hay with
  | nil =>
    intro i0 r heq
    simp only [jsIndexOfAux] at heq
    by_cases hne : needle.isEmpty
    · simp [hne] at heq
      subst heq
      refine ⟨le_refl _, ?_, by omega⟩
      have : needle = [] := List.isEmpty_iff.mp hne
      simp [occursAt, this, strIsPrefix]
    · simp [hne] at heq
  | cons c rest ih =>
    intro i0 r heq
    simp only [jsIndexOfAux] at heq
    cases hp : strIsPrefix needle (c :: rest) with
    | true =>
      rw [hp] at heq
      simp at heq
      subst heq
      refine ⟨le_refl _, ?_, by omega⟩
      simpa [occursAt] using hp
    | false =>
      rw [hp] at heq
      simp at heq
      obtain ⟨hle, hocc, hmin⟩ := ih (i0 + 1) r heq
      refine ⟨by omega, ?_, ?_⟩
      · have hri : r - i0 = (r - (i0 + 1)) + 1 := by omega
        rw [hri]
        simpa [occursAt] using hocc
      · intro j hj
        cases j with
        | zero => simpa [occursAt] using hp
        | succ k =>
          have hk : k < r - (i0 + 1) := by omega
          simpa [occursAt] using hmin k hk

/-- Soundness of `indexOf`: a returned index is the first occurrence. -/
theorem jsIndexOf_first (hay needle : Str) (r : Nat)
    (heq : jsIndexOf hay needle = some r) :
    occursAt hay needle r = true ∧ ∀ j, j < r → occursAt hay needle j = false := by
  have h := jsIndexOfAux_sound needle hay 0 r heq
  exact ⟨by simpa using h.2.1, fun j hj => by simpa using h.2.2 j (by omega)⟩

theorem jsLastIndexOfAux_sound (needle : Str) (hne : needle.isEmpty = false) :
    ∀ (hay : Str) (i0 : Nat) (best : Option Nat) (r : Nat),
    jsLastIndexOfAux hay needle i0 best = some r →
    best = some r ∨ ∃ k, occursAt hay needle k = true ∧ r = i0 + k := by
  intro hay
  induction hay with
  | nil =>
    intro i0 best r heq
    simp [jsLastIndexOfAux, hne] at heq
    exact Or.inl heq
  | cons c rest ih =>
    intro i0 best r heq
    simp only [jsLastIndexOfAux] at heq
    rcases ih (i0 + 1) _ r heq with hb | ⟨k, hk, hr⟩
    · cases hp : strIsPrefix needle (c :: rest) with
      | true =>
        rw [hp] at hb
        simp at hb
        exact Or.inr ⟨0, by simpa [occursAt] using hp, by omega⟩
      | false =>
        rw [hp] at hb
        simp at hb
        exact Or.inl hb
    · exact Or.inr ⟨k + 1, by simpa [occursAt] using hk, by omega⟩

theorem jsLastIndexOfAux_max (needle : Str) (hne : needle.isEmpty = false) :
    ∀ (hay : Str) (i0 : Nat) (best : Option Nat) (r : Nat),
    (∀ b, best = some b → b < i0) →
    jsLastIndexOfAux hay needle i0 best = some r →
    (∀ b, best = some b → b ≤ r) ∧
    (∀ k, occursAt hay needle k = true → i0 + k ≤ r) := by
  intro hay
  induction hay with
  | nil =>
    intro i0 best r hblt heq
    simp [jsLastIndexOfAux, hne] at heq
    constructor
    · intro b hb
      rw [heq] at hb
      simp at hb
      omega
    · intro k hk
      exfalso
      cases needle with
      | nil => simp at hne
      | cons n ns => simp [occursAt, List.drop_nil, strIsPrefix] at hk
  | cons c rest ih =>
    intro i0 best r hblt heq
    simp only [jsLastIndexOfAux] at heq
    have hblt' : ∀ b,
        (if strIsPrefix needle (c :: rest) then some i0 else best) = some b →
        b < i0 + 1 := by
      intro b hb
      cases hp : strIsPrefix needle (c :: rest) with
      | true => rw [hp] at hb; simp at hb; omega
      | false =>
        rw [hp] at hb
        simp at hb
        have := hblt b hb
        omega
    obtain ⟨hbest, hocc⟩ := ih (i0 + 1) _ r hblt' heq
    constructor
    · intro b hb
      cases hp : strIsPrefix needle (c :: rest) with
      | true =>
        have hi0 : i0 ≤ r := hbest i0 (by rw [hp]; simp)
        have := hblt b hb
        omega
      | false => exact hbest b (by rw [hp]; simpa using hb)
    · intro k hk
      cases k with
      | zero =>
        have hp : strIsPrefix needle (c :: rest) = true := by
          simpa [occursAt] using hk
        have := hbest i0 (by rw [hp]; simp)
        omega
      | succ k2 =>
        have := hocc k2 (by simpa [occursAt] using hk)
        omega

/-- Soundness of `lastIndexOf` for a non-empty needle: a returned index
is the greatest occurrence. -/
theorem jsLastIndexOf_last (hay needle : Str) (hne : needle.isEmpty = false)
    (r : Nat) (heq : jsLastIndexOf hay needle = some r) :
    occursAt hay needle r = true ∧ ∀ j, occursAt hay needle j = true → j ≤ r := by
  constructor
  · rcases jsLastIndexOfAux_sound needle hne hay 0 none r heq with h | ⟨k, hk, hr⟩
    · simp at h
    · rw [hr]
      simpa using hk
  · intro j hj
    have h := (jsLastIndexOfAux_max needle hne hay 0 none r (by simp) heq).2 j hj
    omega

/-- C2 (amended): `parseResponse` is total and degrades: when a marker
is missing or the markers are out of order, the result carries the raw
input as narrative with no actions, no questions, and
`requiresUserInput = false`; when the sliced payload fails the brace
validation or `JSON.parse`, the result has the same empty shape but
its narrative is the error wrapper "Error parsing response: ..."
followed by the raw input — the raw text is preserved inside the
wrapper, not returned verbatim. -/
theorem parseResponse_error_handling (s : Str) :
    (jsIndexOf (normalizeResponse s) startMarker = none →
       parseResponse s = ⟨.str s, .arr [], .arr [], false⟩) ∧
    (jsLastIndexOf (normalizeResponse s) endMarker = none →
       parseResponse s = ⟨.str s, .arr [], .arr [], false⟩) ∧
    (∀ si ei, jsIndexOf (normalizeResponse s) startMarker = some si →
       jsLastIndexOf (normalizeResponse s) endMarker = some ei → ei ≤ si →
       parseResponse s = ⟨.str s, .arr [], .arr [], false⟩) ∧
    (∀ si ei, jsIndexOf (normalizeResponse s) startMarker = some si →
       jsLastIndexOf (normalizeResponse s) endMarker = some ei → si < ei →
       payloadFails (jsTrim (jsSubstring (normalizeResponse s)
         (si + startMarker.length) ei)) = true →
       parseResponse s =
         ⟨.str ("Error parsing response: jsonStr is not defined\n\nOriginal response:\n".data ++ s),
          .arr [], .arr [], false⟩) := by
  refine ⟨?_, ?_, ?_, ?_⟩
  · intro h1
    cases h2 : jsLastIndexOf (normalizeResponse s) endMarker <;>
      simp [parseResponse, rawResult, h1, h2]
  · intro h2
    cases h1 : jsIndexOf (normalizeResponse s) startMarker <;>
      simp [parseResponse, rawResult, h1, h2]
  · intro si ei h1 h2 hle
    have hnlt : ¬ si < ei := by omega
    simp [parseResponse, rawResult, h1, h2, hnlt]
  · intro si ei h1 h2 hlt hfail
    have hstep : parseResponse s =
        decodePayload s (jsTrim (jsSubstring (normalizeResponse s)
          (si + startMarker.length) ei)) := by
      simp [parseResponse, h1, h2, hlt]
    rw [hstep]
    set p := jsTrim (jsSubstring (normalizeResponse s)
      (si + startMarker.length) ei) with hpdef
    unfold payloadFails at hfail
    by_cases hhead : p.headD ' ' = '\x7b'
    · by_cases hlast : p.getLastD ' ' = '\x7d'
      · have hframe : (decide (p.headD ' ' = '\x7b') &&
            decide (p.getLastD ' ' = '\x7d')) = true := by
          rw [decide_eq_true hhead, decide_eq_true hlast]
          rfl
        rw [hframe] at hfail
        have hnone : (jsonParse p).isNone = true := by simpa using hfail
        cases hj : jsonParse p with
        | none =>
          unfold decodePayload
          rw [hframe, hj]
          simp [errorResult]
        | some j => rw [hj] at hnone; simp at hnone
      · have hframe : (decide (p.headD ' ' = '\x7b') &&
            decide (p.getLastD ' ' = '\x7d')) = false := by
          rw [decide_eq_false hlast]
          simp
        unfold decodePayload
        rw [hframe]
        simp [errorResult]
    · have hframe : (decide (p.headD ' ' = '\x7b') &&
          decide (p.getLastD ' ' = '\x7d')) = false := by
        rw [decide_eq_false hhead]
        simp
      unfold decodePayload
      rw [hframe]
      simp [errorResult]

/-- Witness for C2: the raw-narrative result on marker-free input, and
the error-wrapper result on a payload that fails validation. -/
theorem parseResponse_error_handling_witness :
    parseResponse "hello".data = ⟨.str "hello".data, .arr [], .arr [], false⟩ ∧
    parseResponse c2input =
      ⟨.str ("Error parsing response: jsonStr is not defined\n\nOriginal response:\n".data ++ c2input),
       .arr [], .arr [], false⟩ :=
  ⟨(parseResponse_error_handling "hello".data).1 (by decide),
   (parseResponse_error_handling c2input).2.2.2 0 20 (by decide) (by decide)
     (by decide) (by decide)⟩

/-- Counterexample to C2 as stated: on a payload that fails JSON
validation the narrative is the error wrapper, not the raw text. -/
theorem parseResponse_raw_narrative_counterexample :
    (parseResponse c2input).content ≠ .str c2input ∧
    (parseResponse c2input).content =
      .str ("Error parsing response: jsonStr is not defined\n\nOriginal response:\n".data ++ c2input) ∧
    (parseResponse c2input).actions = .arr [] ∧
    (parseResponse c2input).questions = .arr [] ∧
    (parseResponse c2input).requiresUserInput = false := by
  refine ⟨?_, rfl, rfl, rfl, rfl⟩
  intro hcontra
  exact absurd (congrArg jsonStrLen hcontra) (by decide)

/-- C1 (amended): on a successfully parsed delimited payload, the
`questions` value is surfaced exactly as parsed — no entry is filtered
for a missing `id`, `text`, or `type`, nor for the sentinel type
"none" — and `requiresUserInput` is computed from the raw `questions`
value's length, not from a filtered list. -/
theorem parseResponse_questions_unfiltered (s p : Str) (j : Json) :
    ∀ si ei, jsIndexOf (normalizeResponse s) startMarker = some si →
      jsLastIndexOf (normalizeResponse s) endMarker = some ei → si < ei →
      jsTrim (jsSubstring (normalizeResponse s) (si + startMarker.length) ei) = p →
      p.headD ' ' = '\x7b' → p.getLastD ' ' = '\x7d' →
      jsonParse p = some j →
      (parseResponse s).questions =
        (match getField j "questions".data with
         | some v => if jsTruthy v then v else .arr []
         | none => .arr []) ∧
      (parseResponse s).requiresUserInput =
        jsGtZero (jsOptLength (getField j "questions".data)) := by
  intro si ei h1 h2 hlt hp hhead hlast hj
  have hstep : parseResponse s = decodePayload s p := by
    simp [parseResponse, h1, h2, hlt, hp]
  have hframe : (decide (p.headD ' ' = '\x7b') &&
      decide (p.getLastD ' ' = '\x7d')) = true := by
    rw [decide_eq_true hhead, decide_eq_true hlast]
    rfl
  have hdec : decodePayload s p = successResult s j := by
    unfold decodePayload
    rw [hframe, hj]
    rfl
  rw [hstep, hdec]
  exact ⟨rfl, rfl⟩

/-- Witness for C1 at the concrete reply `c1input`. -/
theorem parseResponse_questions_unfiltered_witness :
    (parseResponse c1input).questions =
      (match getField c1json "questions".data with
       | some v => if jsTruthy v then v else .arr []
       | none => .arr []) ∧
    (parseResponse c1input).requiresUserInput =
      jsGtZero (jsOptLength (getField c1json "questions".data)) :=
  parseResponse_questions_unfiltered c1input c1payload c1json 0 77
    (by decide) (by decide) (by decide) rfl (by decide) (by decide) rfl

/-- Counterexample to C1 as stated: a question with empty `id`, empty
`text`, and type "none" is returned unfiltered, and
`requiresUserInput` is `true` although the filtered list the claim
describes would be empty. -/
theorem parseResponse_question_filtering_counterexample :
    (parseResponse c1input).requiresUserInput = true ∧
    jsonArrLen (parseResponse c1input).questions = 1 ∧
    (parseResponse c1input).questions =
      .arr [.obj [("id".data, .str []), ("text".data, .str []),
        ("type".data, .str "none".data)]] :=
  ⟨rfl, rfl, rfl⟩

/-- C3 (amended): when both markers are present in order (in the
normalised text), `parseResponse` decodes the slice between the first
occurrence of the start marker and the LAST occurrence of the single
accepted end marker `<RESPONSE_END>` (not the earliest); when a marker
is missing or they are out of order, the whole raw text becomes the
narrative with no actions or questions. -/
theorem parseResponse_marker_selection (s : Str) :
    (∀ si ei, jsIndexOf (normalizeResponse s) startMarker = some si →
       jsLastIndexOf (normalizeResponse s) endMarker = some ei → si < ei →
       occursAt (normalizeResponse s) startMarker si = true ∧
       (∀ i, i < si → occursAt (normalizeResponse s) startMarker i = false) ∧
       occursAt (normalizeResponse s) endMarker ei = true ∧
       (∀ i, occursAt (normalizeResponse s) endMarker i = true → i ≤ ei) ∧
       parseResponse s =
         decodePayload s (jsTrim (jsSubstring (normalizeResponse s)
           (si + startMarker.length) ei))) ∧
    (∀ si ei, jsIndexOf (normalizeResponse s) startMarker = some si →
       jsLastIndexOf (normalizeResponse s) endMarker = some ei → ei ≤ si →
       parseResponse s = rawResult s) ∧
    (jsIndexOf (normalizeResponse s) startMarker = none →
       parseResponse s = rawResult s) ∧
    (jsLastIndexOf (normalizeResponse s) endMarker = none →
       parseResponse s = rawResult s) := by
  refine ⟨?_, ?_, ?_, ?_⟩
  · intro si ei h1 h2 hlt
    have hne : endMarker.isEmpty = false := by decide
    obtain ⟨hocc1, hfirst⟩ := jsIndexOf_first (normalizeResponse s) startMarker si h1
    obtain ⟨hocc2, hlast⟩ := jsLastIndexOf_last (normalizeResponse s) endMarker hne ei h2
    refine ⟨hocc1, hfirst, hocc2, hlast, ?_⟩
    simp [parseResponse, h1, h2, hlt]
  · intro si ei h1 h2 hle
    have hnlt : ¬ si < ei := by omega
    simp [parseResponse, h1, h2, hnlt]
  · intro h1
    cases h2 : jsLastIndexOf (normalizeResponse s) endMarker <;>
      simp [parseResponse, h1, h2]
  · intro h2
    cases h1 : jsIndexOf (normalizeResponse s) startMarker <;>
      simp [parseResponse, h1, h2]

/-- Witness for C3 at the concrete two-end-marker reply `c3input`. -/
theorem parseResponse_marker_selection_witness :
    occursAt (normalizeResponse c3input) startMarker 0 = true ∧
    (∀ i, i < 0 → occursAt (normalizeResponse c3input) startMarker i = false) ∧
    occursAt (normalizeResponse c3input) endMarker 44 = true ∧
    (∀ i, occursAt (normalizeResponse c3input) endMarker i = true → i ≤ 44) ∧
    parseResponse c3input =
      decodePayload c3input (jsTrim (jsSubstring (normalizeResponse c3input)
        (0 + startMarker.length) 44)) :=
  (parseResponse_marker_selection c3input).1 0 44 (by decide) (by decide)
    (by decide)

/-- Counterexample to C3 as stated: with two end markers, decoding up
to the earliest (the spec's reading, `parseResponseSpecReading`)
yields the narrative "hi", while the implementation slices up to the
last end marker, fails validation, and produces the error wrapper. -/
theorem parseResponse_earliest_end_counterexample :
    parseResponseSpecReading c3input = ⟨.str "hi".data, .arr [], .arr [], false⟩ ∧
    parseResponse c3input = errorResult c3input ∧
    (parseResponse c3input).content ≠ (parseResponseSpecReading c3input).content := by
  refine ⟨rfl, rfl, ?_⟩
  intro hcontra
  exact absurd (congrArg jsonStrLen hcontra) (by decide)

/-! ## Theorems: ContextManager.chunkDocument (claim C5) -/

theorem splitPred_ne_nil (p : Char → Bool) : ∀ s : Str, splitPred p s ≠ [] := by
  intro s
  cases s with
  | nil => simp [splitPred]
  | cons c rest =>
    cases hp : p c with
    | true => simp [splitPred, hp]
    | false =>
      simp only [splitPred, hp, Bool.false_eq_true, if_false]
      cases splitPred p rest <;> simp

theorem splitPred_noSep (p : Char → Bool) :
    ∀ (s : Str) (l : Str), l ∈ splitPred p s → ∀ c ∈ l, p c = false := by
  intro s
  induction s with
  | nil =>
    intro l hl c hc
    simp [splitPred] at hl
    subst hl
    simp at hc
  | cons a rest ih =>
    intro l hl c hc
    cases hp : p a with
    | true =>
      have hstep : splitPred p (a :: rest) = [] :: splitPred p rest := by
        simp [splitPred, hp]
      rw [hstep] at hl
      rcases List.mem_cons.mp hl with rfl | hmem
      · simp at hc
      · exact ih l hmem c hc
    | false =>
      cases hsp : splitPred p rest with
      | nil => exact absurd hsp (splitPred_ne_nil p rest)
      | cons l0 ls =>
        have hstep : splitPred p (a :: rest) = (a :: l0) :: ls := by
          simp [splitPred, hp, hsp]
        rw [hstep] at hl
        rcases List.mem_cons.mp hl with rfl | hmem
        · rcases List.mem_cons.mp hc with rfl | hc0
          · exact hp
          · exact ih l0 (by rw [hsp]; exact List.mem_cons_self _ _) c hc0
        · exact ih l (by rw [hsp]; exact List.mem_cons_of_mem _ hmem) c hc

theorem splitLines_noNL (s : Str) : ∀ l ∈ splitLines s, noNL l = true := by
  intro l hl
  have h := splitPred_noSep (fun c => c == '\n') s l hl
  simp only [noNL, List.all_eq_true]
  intro c hc
  simpa using h c hc

theorem joinNL_cons (l : Str) (ls : List Str) :
    joinNL (l :: ls) = l ++ ['\n'] ++ joinNL ls := by
  simp [joinNL]

theorem joinNL_append (a b : List Str) :
    joinNL (a ++ b) = joinNL a ++ joinNL b := by
  simp [joinNL]

theorem joinNL_splitLines (s : Str) : joinNL (splitLines s) = s ++ ['\n'] := by
  induction s with
  | nil => rfl
  | cons c rest ih =>
    cases hp : (c == '\n') with
    | true =>
      have hc : c = '\n' := by simpa using hp
      have hstep : splitLines (c :: rest) = [] :: splitLines rest := by
        simp [splitLines, splitPred, hp]
      rw [hstep, joinNL_cons, ih, hc]
      simp
    | false =>
      cases hsp : splitLines rest with
      | nil => exact absurd hsp (splitPred_ne_nil _ rest)
      | cons l0 ls =>
        have hstep : splitLines (c :: rest) = (c :: l0) :: ls := by
          simp only [splitLines] at hsp ⊢
          simp [splitPred, hp, hsp]
        have ih' : l0 ++ ['\n'] ++ joinNL ls = rest ++ ['\n'] := by
          rw [← joinNL_cons, ← hsp]
          exact ih
        rw [hstep, joinNL_cons]
        simpa [List.append_assoc] using congrArg (fun t => c :: t) ih'

theorem nlCount_append (a b : Str) :
    nlCount (a ++ b) = nlCount a + nlCount b :=
  List.countP_append _ _ _

theorem nlCount_noNL (l : Str) (h : noNL l = true) : nlCount l = 0 := by
  rw [nlCount, List.countP_eq_zero]
  intro c hc
  simp only [noNL, List.all_eq_true] at h
  simpa using h c hc

theorem contentJoin_append (a b : List CodeDoc) :
    contentJoin (a ++ b) = contentJoin a ++ contentJoin b := by
  simp [contentJoin]

theorem totalNL_append (a b : List CodeDoc) :
    totalNL (a ++ b) = totalNL a + totalNL b := by
  simp [totalNL]

theorem chunkRep_sizeOK (B : Nat) (c : CodeDoc) (h : chunkRep B c) :
    chunkSizeOK B c := by
  rcases h with ⟨ls, hcontent, hall, hok | ⟨l, hls, hlen⟩⟩
  · exact Or.inl hok
  · refine Or.inr ⟨l, hall l (by simp [hls]), ?_, hlen⟩
    rw [hcontent, hls, joinNL_cons]
    simp [joinNL]

theorem chunkLoop_spec (d : CodeDoc) (B : Nat) :
    ∀ (lines : List Str) (chunks : List CodeDoc) (cur : CodeDoc) (curSize : Nat),
    curSize = cur.content.length →
    (∀ l ∈ lines, noNL l = true) →
    chunkRep B cur →
    (∀ c ∈ chunks, chunkRep B c) →
    (∀ c ∈ chunkLoop d B lines chunks cur curSize, chunkRep B c) ∧
    contentJoin (chunkLoop d B lines chunks cur curSize) =
      contentJoin chunks ++ cur.content ++ joinNL lines ∧
    totalNL (chunkLoop d B lines chunks cur curSize) =
      totalNL chunks + nlCount cur.content + lines.length := by
  intro lines
  induction lines with
  | nil =>
    intro chunks cur curSize hsize hlines hcur hchunks
    by_cases hemp : cur.content.isEmpty
    · have hc0 : cur.content = [] := List.isEmpty_iff.mp hemp
      simp only [chunkLoop, hemp, if_true]
      refine ⟨hchunks, ?_, ?_⟩
      · simp [hc0, joinNL]
      · simp [hc0, nlCount, totalNL]
    · have hemp' : cur.content.isEmpty = false := Bool.eq_false_iff.mpr hemp
      simp only [chunkLoop, hemp', Bool.false_eq_true, if_false]
      refine ⟨?_, ?_, ?_⟩
      · intro c hc
        rcases List.mem_append.mp hc with h | h
        · exact hchunks c h
        · simp at h
          subst h
          exact hcur
      · rw [contentJoin_append]
        simp [contentJoin, joinNL]
      · rw [totalNL_append]
        simp [totalNL]
  | cons line rest ih =>
    intro chunks cur curSize hsize hlines hcur hchunks
    have hline : noNL line = true := hlines line (by simp)
    have hrest : ∀ l ∈ rest, noNL l = true := fun l hl => hlines l (by simp [hl])
    by_cases hflush : curSize + line.length > B
    · have hcur' : chunkRep B { freshChunk d with content := line ++ ['\n'] } := by
        refine ⟨[line], by simp [joinNL], by simpa using hline, ?_⟩
        by_cases hlen : line.length ≤ B
        · left; simp; omega
        · right; exact ⟨line, rfl, by omega⟩
      have hchunks' : ∀ c ∈ chunks ++ [cur], chunkRep B c := by
        intro c hc
        rcases List.mem_append.mp hc with h | h
        · exact hchunks c h
        · simp at h
          subst h
          exact hcur
      obtain ⟨hOK, hjoin, hcount⟩ := ih (chunks ++ [cur])
        { freshChunk d with content := line ++ ['\n'] } (line.length + 1)
        (by simp) hrest hcur' hchunks'
      simp only [chunkLoop, if_pos hflush]
      refine ⟨hOK, ?_, ?_⟩
      · rw [hjoin, contentJoin_append, joinNL_cons]
        simp [contentJoin, List.append_assoc]
      · rw [hcount, totalNL_append]
        have h1 : nlCount (line ++ ['\n']) = 1 := by
          rw [nlCount_append, nlCount_noNL line hline]
          rfl
        simp only [totalNL, List.map_cons, List.map_nil, List.sum_cons,
          List.sum_nil, h1, List.length_cons]
        omega
    · have hle : curSize + line.length ≤ B := by omega
      have hcur' : chunkRep B { cur with content := cur.content ++ line ++ ['\n'] } := by
        rcases hcur with ⟨ls, hcontent, hall, _⟩
        refine ⟨ls ++ [line], ?_, ?_, ?_⟩
        · simp only []
          rw [joinNL_append, joinNL_cons, hcontent]
          simp [joinNL, List.append_assoc]
        · intro l hl
          rcases List.mem_append.mp hl with h | h
          · exact hall l h
          · simp at h
            subst h
            exact hline
        · left
          simp only [List.length_append, List.length_cons, List.length_nil]
          omega
      obtain ⟨hOK, hjoin, hcount⟩ := ih chunks
        { cur with content := cur.content ++ line ++ ['\n'] }
        (curSize + line.length + 1)
        (by simp [hsize]; omega) hrest hcur' hchunks
      simp only [chunkLoop, if_neg hflush]
      refine ⟨hOK, ?_, ?_⟩
      · rw [hjoin, joinNL_cons]
        simp [List.append_assoc]
      · rw [hcount]
        have h1 : nlCount (cur.content ++ line ++ ['\n']) =
            nlCount cur.content + 1 := by
          rw [nlCount_append, nlCount_append, nlCount_noNL line hline]
          rfl
        simp only [h1, List.length_cons]
        omega

/-- C5 (amended): for every document and budget, the chunks carry
exactly the document's lines (their total line count equals the line
count of the content, and concatenating their contents reproduces the
content followed by one trailing newline, preserving the line
sequence), and every chunk either keeps its content within `B + 1`
characters — the budget is respected only up to the newline appended
after the final line, so a chunk's accumulated size can reach `B + 1`
— or is a single line that alone exceeds the budget, sitting in its
own chunk. -/
theorem chunkDocument_spec (d : CodeDoc) (B : Nat) :
    totalNL (chunkDocument d B) = (splitLines d.content).length ∧
    contentJoin (chunkDocument d B) = d.content ++ ['\n'] ∧
    ∀ c ∈ chunkDocument d B, chunkSizeOK B c := by
  have hfresh : chunkRep B (freshChunk d) :=
    ⟨[], by simp [freshChunk, joinNL], by simp, Or.inl (by simp [freshChunk])⟩
  obtain ⟨hOK, hjoin, hcount⟩ := chunkLoop_spec d B (splitLines d.content) []
    (freshChunk d) 0 (by simp [freshChunk]) (splitLines_noNL d.content)
    hfresh (by simp)
  refine ⟨?_, ?_, fun c hc => chunkRep_sizeOK B c (hOK c hc)⟩
  · rw [chunkDocument, hcount]
    simp [totalNL, nlCount, freshChunk]
  · rw [chunkDocument, hjoin, joinNL_splitLines]
    simp [contentJoin, freshChunk]

/-- Witness for C5: the size clause evaluated at the concrete
two-line document `c5doc` with budget 10. -/
theorem chunkDocument_spec_witness :
    chunkSizeOK 10 (CodeDoc.mk "chunk".data "a.txt".data "plaintext".data
      "aaaaa\nbbbb\n".data (chunkMetadata c5doc)) :=
  (chunkDocument_spec c5doc 10).2.2 _ (by decide)

/-- Counterexample to C5 as stated: both lines of `c5doc` fit the
budget 10, yet the single produced chunk has accumulated size 11
(the appended newlines count toward `currentSize`), exceeding the
budget without any single oversized line. -/
theorem chunkDocument_budget_counterexample :
    (chunkDocument c5doc 10).length = 1 ∧
    (∀ l ∈ splitLines c5doc.content, l.length ≤ 10) ∧
    ∀ c ∈ chunkDocument c5doc 10, c.content.length = 11 := by
  decide

/-! ## Theorems: EmbeddingProvider.generateSimpleHash (claim C7) -/

theorem hashPos_lt (t : Str) : hashPos t < 384 :=
  Nat.mod_lt _ (by norm_num)

theorem sum_set_add : ∀ (v : List ℚ) (p : Nat) (x : ℚ), p < v.length →
    (v.set p (v.getD p 0 + x)).sum = v.sum + x := by
  intro v
  induction v with
  | nil => intro p x h; simp at h
  | cons a t ih =>
    intro p x h
    cases p with
    | zero =>
      simp only [List.set_cons_zero, List.getD_cons_zero, List.sum_cons]
      ring
    | succ q =>
      simp only [List.set_cons_succ, List.getD_cons_succ, List.sum_cons]
      rw [ih q x (by simpa using h)]
      ring

theorem scatter_length : ∀ (l : List (Nat × Str)) (v : List ℚ),
    (l.foldl scatterStep v).length = v.length := by
  intro l
  induction l with
  | nil => intro v; rfl
  | cons iw rest ih =>
    intro v
    rw [List.foldl_cons, ih]
    simp [scatterStep]

theorem scatter_sum : ∀ (l : List (Nat × Str)) (v : List ℚ), v.length = 384 →
    (l.foldl scatterStep v).sum =
      v.sum + (l.map (fun iw => (1 : ℚ) / (iw.1 + 1))).sum := by
  intro l
  induction l with
  | nil => intro v _; simp
  | cons iw rest ih =>
    intro v hv
    rw [List.foldl_cons]
    have hlen : (scatterStep v iw).length = 384 := by
      simp [scatterStep, hv]
    rw [ih _ hlen]
    have hp : hashPos iw.2 < v.length := by rw [hv]; exact hashPos_lt _
    unfold scatterStep
    rw [sum_set_add v _ _ hp]
    simp [add_assoc]

theorem magSq_nonneg (v : List ℚ) : 0 ≤ magSq v := by
  apply List.sum_nonneg
  intro x hx
  rcases List.mem_map.mp hx with ⟨y, _, rfl⟩
  exact mul_self_nonneg y

theorem magSq_pos_of_sum_pos (v : List ℚ) (h : 0 < v.sum) : 0 < magSq v := by
  have hex : ∃ x ∈ v, x ≠ 0 := by
    by_contra hall
    push_neg at hall
    rw [List.sum_eq_zero hall] at h
    exact lt_irrefl 0 h
  rcases hex with ⟨x, hx, hx0⟩
  have hmem : x * x ∈ v.map (fun y => y * y) := List.mem_map_of_mem _ hx
  have hle : x * x ≤ magSq v := by
    apply List.single_le_sum _ _ hmem
    intro b hb
    rcases List.mem_map.mp hb with ⟨y, _, rfl⟩
    exact mul_self_nonneg y
  have hxx : 0 < x * x := mul_self_pos.mpr hx0
  linarith

theorem magSq_replicate_zero : ∀ n : Nat, magSq (List.replicate n (0 : ℚ)) = 0 := by
  intro n
  induction n with
  | zero => rfl
  | succ m ih =>
    rw [List.replicate_succ]
    simp only [magSq, List.map_cons, List.sum_cons] at ih ⊢
    rw [ih]
    ring

theorem magSq_replicate_set_one : ∀ (n p : Nat), p < n →
    magSq ((List.replicate n (0 : ℚ)).set p 1) = 1 := by
  intro n
  induction n with
  | zero => intro p h; simp at h
  | succ m ih =>
    intro p h
    rw [List.replicate_succ]
    cases p with
    | zero =>
      simp only [List.set_cons_zero, magSq, List.map_cons, List.sum_cons]
      have := magSq_replicate_zero m
      simp only [magSq] at this
      rw [this]
      ring
    | succ q =>
      simp only [List.set_cons_succ, magSq, List.map_cons, List.sum_cons]
      have := ih q (by omega)
      simp only [magSq] at this
      rw [this]
      ring

theorem sum_map_div_real : ∀ (v : List ℚ) (f : ℚ → ℝ) (c : ℝ),
    (v.map (fun x => f x / c)).sum = (v.map f).sum / c := by
  intro v f c
  induction v with
  | nil => simp
  | cons a t ih =>
    simp only [List.map_cons, List.sum_cons, ih]
    rw [add_div]

theorem cast_magSq (v : List ℚ) :
    ((magSq v : ℚ) : ℝ) = (v.map (fun (x : ℚ) => (x : ℝ) * (x : ℝ))).sum := by
  unfold magSq
  induction v with
  | nil => simp
  | cons a t ih =>
    simp only [List.map_cons, List.sum_cons, Rat.cast_add, Rat.cast_mul]
    rw [ih]

theorem normalized_sum_one (v : List ℚ) (h : 0 < magSq v) :
    (v.map (fun (x : ℚ) =>
      ((x : ℝ) / Real.sqrt ((magSq v : ℚ) : ℝ)) *
      ((x : ℝ) / Real.sqrt ((magSq v : ℚ) : ℝ)))).sum = 1 := by
  have hS : (0 : ℝ) < ((magSq v : ℚ) : ℝ) := by exact_mod_cast h
  have hsqrt : Real.sqrt ((magSq v : ℚ) : ℝ) * Real.sqrt ((magSq v : ℚ) : ℝ) =
      ((magSq v : ℚ) : ℝ) := Real.mul_self_sqrt hS.le
  have hterm : ∀ x : ℚ,
      ((x : ℝ) / Real.sqrt ((magSq v : ℚ) : ℝ)) *
      ((x : ℝ) / Real.sqrt ((magSq v : ℚ) : ℝ)) =
      ((x : ℝ) * (x : ℝ)) / ((magSq v : ℚ) : ℝ) := by
    intro x
    rw [div_mul_div_comm, hsqrt]
  calc (v.map (fun (x : ℚ) =>
        ((x : ℝ) / Real.sqrt ((magSq v : ℚ) : ℝ)) *
        ((x : ℝ) / Real.sqrt ((magSq v : ℚ) : ℝ)))).sum
      = (v.map (fun (x : ℚ) => ((x : ℝ) * (x : ℝ)) / ((magSq v : ℚ) : ℝ))).sum := by
        congr 1
        exact List.map_congr_left (fun x _ => hterm x)
    _ = (v.map (fun (x : ℚ) => (x : ℝ) * (x : ℝ))).sum / ((magSq v : ℚ) : ℝ) :=
        sum_map_div_real v _ _
    _ = ((magSq v : ℚ) : ℝ) / ((magSq v : ℚ) : ℝ) := by rw [← cast_magSq]
    _ = 1 := div_self (ne_of_gt hS)

theorem one_div_succ_pos (i : Nat) : (0 : ℚ) < 1 / (i + 1) := by
  apply div_pos
  · norm_num
  · exact_mod_cast Nat.succ_pos i

/-- C7: the fallback hash embedding is a pure function of the input
text (the embedding is a function, so two runs on the same input are
identical), the produced vector has fixed dimension 384, its squared
magnitude is strictly positive for every input — so the all-zero case
is unreachable and, in exact arithmetic, the vector the source returns
after dividing by the L2 magnitude has norm exactly 1 (the empty-words
branch returns the raw vector, whose magnitude is already 1) — and
empty or whitespace-only input yields the single unit-magnitude
position derived from the hash of the raw string. -/
theorem generateSimpleHash_deterministic_unit (t : Str) :
    (generateSimpleHashVec t).length = 384 ∧
    generateSimpleHashVec t = generateSimpleHashVec t ∧
    0 < magSq (generateSimpleHashVec t) ∧
    ((generateSimpleHashVec t).map (fun (x : ℚ) =>
      ((x : ℝ) / Real.sqrt ((magSq (generateSimpleHashVec t) : ℚ) : ℝ)) *
      ((x : ℝ) / Real.sqrt ((magSq (generateSimpleHashVec t) : ℚ) : ℝ)))).sum = 1 ∧
    (jsWords t = [] →
      generateSimpleHashVec t = (List.replicate 384 0).set (hashPos t) 1) := by
  have hpos : 0 < magSq (generateSimpleHashVec t) := by
    unfold generateSimpleHashVec
    by_cases hw : (jsWords t).isEmpty
    · simp only [hw, if_true]
      rw [magSq_replicate_set_one 384 (hashPos t) (hashPos_lt t)]
      norm_num
    · simp only [hw, Bool.false_eq_true, if_false]
      apply magSq_pos_of_sum_pos
      rw [scatter_sum _ _ (by simp)]
      rw [List.sum_replicate]
      simp only [smul_zero, zero_add]
      apply List.sum_pos
      · intro x hx
        rcases List.mem_map.mp hx with ⟨iw, _, rfl⟩
        exact one_div_succ_pos iw.1
      · have hne : jsWords t ≠ [] := by
          intro hcon
          rw [hcon] at hw
          simp at hw
        intro hcon
        rw [List.map_eq_nil_iff] at hcon
        apply hne
        have hlen := congrArg List.length hcon
        rw [List.enum_length] at hlen
        exact List.length_eq_zero.mp (by simpa using hlen)
  refine ⟨?_, rfl, hpos, normalized_sum_one _ hpos, ?_⟩
  · unfold generateSimpleHashVec
    by_cases hw : (jsWords t).isEmpty
    · simp [hw]
    · simp only [hw, Bool.false_eq_true, if_false]
      rw [scatter_length]
      simp
  · intro hempty
    have hw : (jsWords t).isEmpty = true := by simp [hempty]
    unfold generateSimpleHashVec
    simp [hw]

/-- Witness for C7: the empty raw string maps to the unit vector at
the position derived from its hash. -/
theorem generateSimpleHash_deterministic_unit_witness :
    generateSimpleHashVec [] = (List.replicate 384 0).set (hashPos []) 1 :=
  (generateSimpleHash_deterministic_unit []).2.2.2.2 (by decide)
